import Mathlib

/-!
Verification development for `src/diff.rs` of the file-diff-extractor
repository: a shallow embedding of its data model and operations, plus
theorems settling the specification claims.

Modelling conventions:
* A filesystem path is a list of its components (`List String`); its
  display form joins components with the host separator, which on the
  Linux host is `/` (the `cfg!(windows)` branch of the source is dead
  on this host).
* The filesystem world is passed explicitly: the walk of a tree is the
  list of entries (or errors) `WalkDir` yields, file contents are an
  `Option (List Nat)`-valued function (bytes, `none` = unreadable), and
  metadata length is an `Option Nat`-valued function.
* Rust `Result` is `Except Unit` (the error payload is irrelevant to
  the claims), machine integers are `Nat` reduced modulo `2 ^ 32`
  exactly where the source wraps.
-/

namespace FileDiff

/-- Display form of a relative path: components joined by the host
separator, `/` on this host (Rust `Path::display().to_string()`). -/
def pathDisplay (p : List String) : String :=
  String.intercalate "/" p

/-- Boolean prefix test on character lists (byte-wise `str` matching in
the source; UTF-8 makes char-wise and byte-wise matching agree). -/
def isPrefixB : List Char → List Char → Bool
  | [], _ => true
  | _ :: _, [] => false
  | a :: as, b :: bs => a == b && isPrefixB as bs

/-- Substring containment, Rust `str::contains`. -/
def containsSeq (pat : List Char) : List Char → Bool
  | [] => pat.isEmpty
  | c :: t => isPrefixB pat (c :: t) || containsSeq pat t

/-- Suffix test, Rust `str::ends_with`. -/
def isSuffixB (pat s : List Char) : Bool :=
  isPrefixB pat.reverse s.reverse

/-- `s` contains `pat` as a substring. -/
def strContainsStr (s pat : String) : Bool :=
  containsSeq pat.toList s.toList

/-- `s` ends with `pat`. -/
def strEndsWith (s pat : String) : Bool :=
  isSuffixB pat.toList s.toList

/-- Rust `dir.replace('\\', "/")`: the non-Windows branch of the
platform-separator normalization in `should_exclude`. -/
def normalizeSeps (d : String) : String :=
  String.mk (d.toList.map (fun c => if c == '\\' then '/' else c))

/-- Rust `s.starts_with('.')` on a path component. -/
def startsWithDot (s : String) : Bool :=
  match s.toList with
  | [] => false
  | c :: _ => c == '.'

/-- Characters strictly after the last `.` of a character list,
`none` when no `.` occurs. -/
def afterLastDot : List Char → Option (List Char)
  | [] => none
  | c :: rest =>
    match afterLastDot rest with
    | some s => some s
    | none => if c == '.' then some rest else none

/-- Rust `Path::extension` semantics on a single file name: the portion
after the final `.`, absent when there is no `.` or when the name begins
with its only `.` (so `.gitignore` has no extension). -/
def rustExtension (name : String) : Option String :=
  match name.toList with
  | [] => none
  | _ :: rest => (afterLastDot rest).map (fun s => String.mk s)

/-- `path.extension()` of a relative path given as components: the
extension of the final component. -/
def pathExtension (p : List String) : Option String :=
  (p.getLast?).bind rustExtension

/-- Modelled from the spec: §4.2 defines a path's final extension as
"text after the last `.` in the final path component, absent if none",
with no special case for a leading dot. Used only to compare the spec's
wording of claim C6 with the source's `Path::extension` behaviour. -/
def specFinalExtension (p : List String) : Option String :=
  (p.getLast?).bind (fun name => (afterLastDot name.toList).map (fun s => String.mk s))

/-- The extension block of `should_exclude` (diff.rs lines 68–76): a
path whose extension is `ext` is excluded when the rule list holds it
bare (`ext`) or dot-prefixed (`.ext`). -/
def excludedByExtension (path : List String) (exclude_extensions : Option (List String)) : Bool :=
  match exclude_extensions with
  | none => false
  | some extensions =>
    match pathExtension path with
    | none => false
    | some ext =>
      let dot_ext := "." ++ ext
      extensions.any (fun e => e == dot_ext || e == ext)

/-- The directory block of `should_exclude` (diff.rs lines 79–95): a
path is excluded when its display form contains a normalized fragment
followed by the separator, or ends with the fragment. -/
def excludedByDirs (path : List String) (exclude_dirs : Option (List String)) : Bool :=
  match exclude_dirs with
  | none => false
  | some dirs =>
    let path_str := pathDisplay path
    dirs.any (fun dir =>
      let platform_dir := normalizeSeps dir
      strContainsStr path_str (platform_dir ++ "/") || strEndsWith path_str platform_dir)

/-- `should_exclude` from diff.rs: the extension check, then the
directory check (the source's early `return true`s make it the
disjunction of the two blocks). -/
def should_exclude (path : List String) (exclude_extensions : Option (List String))
    (exclude_dirs : Option (List String)) : Bool :=
  excludedByExtension path exclude_extensions || excludedByDirs path exclude_dirs

/-! ### SHA-256 (the `sha2` crate digest used by `calculate_file_hash`) -/

/-- Reduce to a 32-bit word. -/
def w32 (n : Nat) : Nat := n % 4294967296

/-- Reduce to a byte. -/
def w8 (n : Nat) : Nat := n % 256

/-- Right rotation of a 32-bit word. -/
def rotr (n x : Nat) : Nat := w32 ((x >>> n) ||| (x <<< (32 - n)))

/-- SHA-256 `Ch` function. -/
def ch (x y z : Nat) : Nat := (x &&& y) ^^^ ((x ^^^ 4294967295) &&& z)

/-- SHA-256 `Maj` function. -/
def maj (x y z : Nat) : Nat := (x &&& y) ^^^ (x &&& z) ^^^ (y &&& z)

/-- SHA-256 Σ₀. -/
def bigSigma0 (x : Nat) : Nat := rotr 2 x ^^^ rotr 13 x ^^^ rotr 22 x

/-- SHA-256 Σ₁. -/
def bigSigma1 (x : Nat) : Nat := rotr 6 x ^^^ rotr 11 x ^^^ rotr 25 x

/-- SHA-256 σ₀. -/
def smallSigma0 (x : Nat) : Nat := rotr 7 x ^^^ rotr 18 x ^^^ (x >>> 3)

/-- SHA-256 σ₁. -/
def smallSigma1 (x : Nat) : Nat := rotr 17 x ^^^ rotr 19 x ^^^ (x >>> 10)

/-- The 64 SHA-256 round constants of FIPS 180-4 (0x428a2f98,
0x71374491, ..., 0xc67178f2), written in decimal. -/
def sha256K : List Nat :=
  [1116352408, 1899447441, 3049323471, 3921009573, 961987163, 1508970993,
   2453635748, 2870763221, 3624381080, 310598401, 607225278, 1426881987,
   1925078388, 2162078206, 2614888103, 3248222580, 3835390401, 4022224774,
   264347078, 604807628, 770255983, 1249150122, 1555081692, 1996064986,
   2554220882, 2821834349, 2952996808, 3210313671, 3336571891, 3584528711,
   113926993, 338241895, 666307205, 773529912, 1294757372, 1396182291,
   1695183700, 1986661051, 2177026350, 2456956037, 2730485921, 2820302411,
   3259730800, 3345764771, 3516065817, 3600352804, 4094571909, 275423344,
   430227734, 506948616, 659060556, 883997877, 958139571, 1322822218,
   1537002063, 1747873779, 1955562222, 2024104815, 2227730452, 2361852424,
   2428436474, 2756734187, 3204031479, 3329325298]

/-- The SHA-256 initial hash value of FIPS 180-4 (0x6a09e667 ...
0x5be0cd19), written in decimal. -/
def sha256H0 : List Nat :=
  [1779033703, 3144134277, 1013904242, 2773480762,
   1359893119, 2600822924, 528734635, 1541459225]

/-- One message-schedule extension step; `acc` holds the words produced
so far, newest first. -/
def stepSchedule (acc : List Nat) : List Nat :=
  w32 (smallSigma1 (acc.getD 1 0) + acc.getD 6 0 + smallSigma0 (acc.getD 14 0) + acc.getD 15 0)
    :: acc

/-- Expand a 16-word block into the 64-word message schedule. -/
def buildW (block : List Nat) : List Nat :=
  ((List.range 48).foldl (fun acc _ => stepSchedule acc) block.reverse).reverse

/-- Compress one 16-word block into the running hash value `h`. -/
def compressBlock (h : List Nat) (block : List Nat) : List Nat :=
  let st := (List.zip sha256K (buildW block)).foldl (fun st kw =>
    match st with
    | [a, b, c, d, e, f, g, hh] =>
      let t1 := w32 (hh + bigSigma1 e + ch e f g + kw.1 + kw.2)
      let t2 := w32 (bigSigma0 a + maj a b c)
      [w32 (t1 + t2), a, b, c, w32 (d + t1), e, f, g]
    | other => other) h
  List.zipWith (fun x y => w32 (x + y)) h st

/-- Big-endian bytes of the 64-bit message length. -/
def beBytes8 (n : Nat) : List Nat :=
  [w8 (n >>> 56), w8 (n >>> 48), w8 (n >>> 40), w8 (n >>> 32),
   w8 (n >>> 24), w8 (n >>> 16), w8 (n >>> 8), w8 n]

/-- SHA-256 padding: `0x80`, zeros to 56 mod 64, then the bit length. -/
def padMessage (msg : List Nat) : List Nat :=
  let len := msg.length
  msg ++ [128] ++ List.replicate ((64 - ((len + 9) % 64)) % 64) 0 ++ beBytes8 (len * 8)

/-- Group bytes into big-endian 32-bit words. -/
def bytesToWords : List Nat → List Nat
  | b0 :: b1 :: b2 :: b3 :: rest =>
    (b0 * 16777216 + b1 * 65536 + b2 * 256 + b3) :: bytesToWords rest
  | _ => []

/-- Consume the padded word stream 16 words at a time, compressing each
full block into the running hash value. -/
def processWords (h : List Nat) (pending : List Nat) : List Nat → List Nat
  | [] => h
  | wrd :: rest =>
    let pending2 := pending ++ [wrd]
    if pending2.length == 16 then processWords (compressBlock h pending2) [] rest
    else processWords h pending2 rest

/-- SHA-256 digest of a byte sequence, as 32 bytes. -/
def sha256 (msg : List Nat) : List Nat :=
  (processWords sha256H0 [] (bytesToWords (padMessage msg))).foldr
    (fun wrd acc => w8 (wrd >>> 24) :: w8 (wrd >>> 16) :: w8 (wrd >>> 8) :: w8 wrd :: acc) []

/-- Lowercase hex digit. -/
def hexDigit (n : Nat) : Char :=
  if n < 10 then Char.ofNat (48 + n) else Char.ofNat (87 + n)

/-- Two-digit lowercase hex of a byte (Rust `format!("{:x}", hash)` on a
digest prints each byte as two lowercase hex digits). -/
def byteToHex (b : Nat) : List Char :=
  [hexDigit (b / 16), hexDigit (b % 16)]

/-- Hex fingerprint string of a byte sequence. -/
def sha256hex (msg : List Nat) : String :=
  String.mk ((sha256 msg).foldr (fun b acc => byteToHex (w8 b) ++ acc) [])

/-! ### Data model and the three filesystem-facing functions -/

/-- `FileInfo` from diff.rs. -/
structure FileInfo where
  relative_path : List String
  hash : String
  size : Nat
deriving DecidableEq

/-- `DiffType` from diff.rs. -/
inductive DiffType where
  | Added : FileInfo → DiffType
  | Modified : FileInfo → DiffType
  | Removed : List String → DiffType
deriving DecidableEq

/-- One entry yielded by the `WalkDir` traversal: an absolute path (as
components) and whether it is a regular file. -/
structure WalkEntry where
  path : List String
  is_file : Bool
deriving DecidableEq

/-- Rust `Path::strip_prefix` on component lists. -/
def stripPrefixComponents : List String → List String → Option (List String)
  | [], p => some p
  | _ :: _, [] => none
  | r :: rs, c :: cs => if r = c then stripPrefixComponents rs cs else none

/-- `HashMap::get` on the association-list model of the snapshot. -/
def lookupSnap (m : List (List String × FileInfo)) (p : List String) : Option FileInfo :=
  match m with
  | [] => none
  | (q, fi) :: rest => if q = p then some fi else lookupSnap rest p

/-- `HashMap::insert` on the association-list model: replace the
binding if the key is present, otherwise append it. -/
def insertA (m : List (List String × FileInfo)) (p : List String) (fi : FileInfo) :
    List (List String × FileInfo) :=
  match m with
  | [] => [(p, fi)]
  | (q, g) :: rest => if q = p then (p, fi) :: rest else (q, g) :: insertA rest p fi

/-- `calculate_file_hash` from diff.rs: open and stream the file's
bytes through SHA-256; an unreadable file (`fs path = none`) is an
error. -/
def calculate_file_hash (fs : List String → Option (List Nat)) (path : List String) :
    Except Unit String :=
  match fs path with
  | none => Except.error ()
  | some contents => Except.ok (sha256hex contents)

/-- The walk stage of `scan_directory` (diff.rs lines 107–110):
`filter_map(Result::ok)` silently drops every walk error — including a
failure to traverse the root — then only regular files are kept. -/
def walkFiles (walk : List (Except Unit WalkEntry)) : List WalkEntry :=
  (walk.filterMap (fun r => match r with
    | Except.ok e => some e
    | Except.error _ => none)).filter (fun e => e.is_file)

/-- The filter closure of `scan_directory` (diff.rs lines 111–130):
compute the relative path (empty on a `strip_prefix` failure), drop
hidden paths, then consult `should_exclude`. -/
def scanFilter (dir_path : List String)
    (exclude_extensions exclude_dirs : Option (List String)) (e : WalkEntry) : Bool :=
  let relative_path := (stripPrefixComponents dir_path e.path).getD []
  if relative_path.any startsWithDot then false
  else ! should_exclude relative_path exclude_extensions exclude_dirs

/-- The per-file worker closure of `scan_directory` (diff.rs lines
141–167): recompute the relative path, look up metadata, hash the file,
and drop the entry (`None`) on any failure. -/
def scanProcess (dir_path : List String)
    (metaF : List String → Option Nat)
    (fs : List String → Option (List Nat)) (entry : WalkEntry) :
    Option (List String × FileInfo) :=
  match stripPrefixComponents dir_path entry.path with
  | none => none
  | some relative_path =>
    match metaF entry.path with
    | none => none
    | some len =>
      match calculate_file_hash fs entry.path with
      | Except.error _ => none
      | Except.ok h => some (relative_path, FileInfo.mk relative_path h len)

/-- `scan_directory` from diff.rs. The walk of the tree (including any
walk errors, which `filter_map(Result::ok)` drops), metadata lookup and
file contents are explicit inputs; everything else follows the source:
keep regular files, drop paths with a hidden component or excluded by
`should_exclude`, then hash each survivor, dropping it on any metadata
or read failure, and insert the records into the map (last writer
wins). -/
def scan_directory (dir_path : List String)
    (exclude_extensions exclude_dirs : Option (List String))
    (walk : List (Except Unit WalkEntry))
    (metaF : List String → Option Nat)
    (fs : List String → Option (List Nat)) :
    Except Unit (List (List String × FileInfo)) :=
  let files_to_process :=
    (walkFiles walk).filter (scanFilter dir_path exclude_extensions exclude_dirs)
  let results := files_to_process.map (scanProcess dir_path metaF fs)
  Except.ok ((results.filterMap id).foldl (fun m pr => insertA m pr.1 pr.2) [])

/-- The snapshot `scan_directory` returns (it never returns an error;
see the C1 theorems). -/
def scanSnap (dir_path : List String)
    (exclude_extensions exclude_dirs : Option (List String))
    (walk : List (Except Unit WalkEntry))
    (metaF : List String → Option Nat)
    (fs : List String → Option (List Nat)) : List (List String × FileInfo) :=
  match scan_directory dir_path exclude_extensions exclude_dirs walk metaF fs with
  | Except.ok m => m
  | Except.error _ => []

/-- The body of the first comparison loop (diff.rs lines 196–207): for
one target binding, emit `Modified` when the source has the path with a
different hash, `Added` when the source lacks it, nothing otherwise. -/
def targetPassF (source_files : List (List String × FileInfo))
    (pr : List String × FileInfo) : Option DiffType :=
  match lookupSnap source_files pr.1 with
  | some source_info =>
    if source_info.hash = pr.2.hash then none else some (DiffType.Modified pr.2)
  | none => some (DiffType.Added pr.2)

/-- The body of the second comparison loop (diff.rs lines 210–214): for
one source binding, emit `Removed` when the target lacks the path. -/
def sourcePassF (target_files : List (List String × FileInfo))
    (pr : List String × FileInfo) : Option DiffType :=
  if (lookupSnap target_files pr.1).isNone then some (DiffType.Removed pr.1) else none

/-- The comparison loops of `compare_directories` (diff.rs lines
193–216): one pass over the target snapshot emitting `Added`/`Modified`,
one pass over the source snapshot emitting `Removed`. -/
def compare_snapshots (source_files target_files : List (List String × FileInfo)) :
    List DiffType :=
  (target_files.filterMap (targetPassF source_files))
  ++ (source_files.filterMap (sourcePassF target_files))

/-- `compare_directories` from diff.rs: scan both roots (propagating a
scan error with `?`), then diff the snapshots. -/
def compare_directories (source_dir target_dir : List String)
    (exclude_extensions exclude_dirs : Option (List String))
    (walk_source walk_target : List (Except Unit WalkEntry))
    (metaF : List String → Option Nat)
    (fs : List String → Option (List Nat)) : Except Unit (List DiffType) :=
  match scan_directory source_dir exclude_extensions exclude_dirs walk_source metaF fs with
  | Except.error e => Except.error e
  | Except.ok source_files =>
    match scan_directory target_dir exclude_extensions exclude_dirs walk_target metaF fs with
    | Except.error e => Except.error e
    | Except.ok target_files => Except.ok (compare_snapshots source_files target_files)

/-! ### Derived notions the claims quantify over -/

/-- The relative path a diff entry is about. -/
def entryPath : DiffType → List String
  | DiffType.Added fi => fi.relative_path
  | DiffType.Modified fi => fi.relative_path
  | DiffType.Removed p => p

/-- The diff entries concerning one relative path. -/
def entriesFor (p : List String) (l : List DiffType) : List DiffType :=
  l.filter (fun d => decide (entryPath d = p))

/-- Snapshot keys are pairwise distinct (the `HashMap` invariant). -/
def NodupKeys (m : List (List String × FileInfo)) : Prop :=
  (m.map Prod.fst).Nodup

/-- Every record is stored under its own relative path (true of every
snapshot `scan_directory` builds). -/
def Coherent (m : List (List String × FileInfo)) : Prop :=
  ∀ pr ∈ m, pr.2.relative_path = pr.1

/-- The list of records `scan_directory` inserts into its map, in
order: the surviving walk entries, processed. -/
def scanPairs (dir_path : List String)
    (exclude_extensions exclude_dirs : Option (List String))
    (walk : List (Except Unit WalkEntry))
    (metaF : List String → Option Nat)
    (fs : List String → Option (List Nat)) : List (List String × FileInfo) :=
  ((((walkFiles walk).filter (scanFilter dir_path exclude_extensions exclude_dirs)).map
    (scanProcess dir_path metaF fs)).filterMap id)

/-! ## Lemmas: the association-list model of `HashMap` -/

theorem lookupSnap_nil (p : List String) : lookupSnap [] p = none := rfl

theorem lookupSnap_cons (q : List String) (g : FileInfo) (rest : List (List String × FileInfo))
    (p : List String) :
    lookupSnap ((q, g) :: rest) p = if q = p then some g else lookupSnap rest p := rfl

theorem mem_of_lookupSnap_eq_some {m : List (List String × FileInfo)} {p : List String}
    {fi : FileInfo} (h : lookupSnap m p = some fi) : (p, fi) ∈ m := by
  induction m with
  | nil => simp [lookupSnap] at h
  | cons hd tl ih =>
    obtain ⟨q, g⟩ := hd
    rw [lookupSnap_cons] at h
    by_cases hq : q = p
    · simp only [hq, if_pos rfl] at h
      injection h with h
      subst hq h
      exact List.mem_cons_self _ _
    · rw [if_neg hq] at h
      exact List.mem_cons_of_mem _ (ih h)

theorem lookupSnap_eq_none_iff {m : List (List String × FileInfo)} {p : List String} :
    lookupSnap m p = none ↔ p ∉ m.map Prod.fst := by
  induction m with
  | nil => simp [lookupSnap]
  | cons hd tl ih =>
    obtain ⟨q, g⟩ := hd
    rw [lookupSnap_cons]
    by_cases hq : q = p
    · subst hq
      rw [if_pos rfl]
      exact iff_of_false (fun h => Option.noConfusion h)
        (fun hn => hn (List.mem_cons_self _ _))
    · rw [if_neg hq]
      simp only [List.map_cons, List.mem_cons, ih]
      constructor
      · rintro hn (h | h)
        · exact hq h.symm
        · exact hn h
      · intro hn
        exact fun h => hn (Or.inr h)

theorem lookupSnap_of_nodupKeys_mem {m : List (List String × FileInfo)} {p : List String}
    {fi : FileInfo} (hm : NodupKeys m) (h : (p, fi) ∈ m) : lookupSnap m p = some fi := by
  induction m with
  | nil => simp at h
  | cons hd tl ih =>
    obtain ⟨q, g⟩ := hd
    unfold NodupKeys at hm
    rw [List.map_cons, List.nodup_cons] at hm
    rw [lookupSnap_cons]
    rcases List.mem_cons.mp h with heq | hmem
    · injection heq with h1 h2
      subst h1 h2
      rw [if_pos rfl]
    · by_cases hq : q = p
      · subst hq
        exact absurd (List.mem_map_of_mem Prod.fst hmem) hm.1
      · rw [if_neg hq]
        exact ih hm.2 hmem

theorem lookupSnap_insertA (m : List (List String × FileInfo)) (q : List String) (g : FileInfo)
    (p : List String) :
    lookupSnap (insertA m q g) p = if q = p then some g else lookupSnap m p := by
  induction m with
  | nil => rfl
  | cons hd tl ih =>
    obtain ⟨k, v⟩ := hd
    unfold insertA
    by_cases hk : k = q
    · subst hk
      rw [if_pos rfl]
      by_cases hp : k = p <;> simp [lookupSnap_cons, hp]
    · rw [if_neg hk]
      rw [lookupSnap_cons, lookupSnap_cons, ih]
      by_cases hp : k = p
      · subst hp
        have hq2 : ¬(q = k) := fun h => hk h.symm
        simp [hq2]
      · simp [hp]

theorem mem_keys_insertA {m : List (List String × FileInfo)} {q : List String} {g : FileInfo}
    {x : List String} :
    x ∈ (insertA m q g).map Prod.fst ↔ x ∈ m.map Prod.fst ∨ x = q := by
  induction m with
  | nil => simp [insertA]
  | cons hd tl ih =>
    obtain ⟨k, v⟩ := hd
    unfold insertA
    by_cases hk : k = q
    · subst hk
      rw [if_pos rfl]
      simp only [List.map_cons, List.mem_cons]
      tauto
    · rw [if_neg hk]
      simp only [List.map_cons, List.mem_cons, ih]
      tauto

theorem nodupKeys_insertA {m : List (List String × FileInfo)} (hm : NodupKeys m)
    (q : List String) (g : FileInfo) : NodupKeys (insertA m q g) := by
  induction m with
  | nil => simp [insertA, NodupKeys]
  | cons hd tl ih =>
    obtain ⟨k, v⟩ := hd
    unfold NodupKeys at hm ⊢
    rw [List.map_cons, List.nodup_cons] at hm
    unfold insertA
    by_cases hk : k = q
    · subst hk
      rw [if_pos rfl, List.map_cons, List.nodup_cons]
      exact hm
    · rw [if_neg hk, List.map_cons, List.nodup_cons]
      refine ⟨fun hmem => ?_, ih hm.2⟩
      rcases mem_keys_insertA.mp hmem with h | h
      · exact hm.1 h
      · exact hk h

theorem mem_insertA {m : List (List String × FileInfo)} {q : List String} {g : FileInfo}
    {pr : List String × FileInfo} (h : pr ∈ insertA m q g) : pr = (q, g) ∨ pr ∈ m := by
  induction m with
  | nil =>
    simp only [insertA, List.mem_singleton] at h
    exact Or.inl h
  | cons hd tl ih =>
    obtain ⟨k, v⟩ := hd
    unfold insertA at h
    by_cases hk : k = q
    · subst hk
      rw [if_pos rfl] at h
      rcases List.mem_cons.mp h with h | h
      · exact Or.inl h
      · exact Or.inr (List.mem_cons_of_mem _ h)
    · rw [if_neg hk] at h
      rcases List.mem_cons.mp h with h | h
      · exact Or.inr (h ▸ List.mem_cons_self _ _)
      · rcases ih h with h | h
        · exact Or.inl h
        · exact Or.inr (List.mem_cons_of_mem _ h)

theorem coherent_insertA {m : List (List String × FileInfo)} (hm : Coherent m)
    {q : List String} {g : FileInfo} (hg : g.relative_path = q) : Coherent (insertA m q g) := by
  intro pr hpr
  rcases mem_insertA hpr with h | h
  · subst h
    exact hg
  · exact hm pr h

/-! ## Lemmas: the diff entries concerning one path -/

theorem entriesFor_nil (p : List String) : entriesFor p [] = [] := rfl

theorem entriesFor_cons (p : List String) (d : DiffType) (l : List DiffType) :
    entriesFor p (d :: l) = if entryPath d = p then d :: entriesFor p l else entriesFor p l := by
  unfold entriesFor
  rw [List.filter_cons]
  by_cases h : entryPath d = p <;> simp [h]

theorem entriesFor_append (p : List String) (l1 l2 : List DiffType) :
    entriesFor p (l1 ++ l2) = entriesFor p l1 ++ entriesFor p l2 := by
  unfold entriesFor
  exact List.filter_append _ _

theorem entriesFor_filterMap (m : List (List String × FileInfo))
    (f : List String × FileInfo → Option DiffType) (p : List String)
    (hm : NodupKeys m) (hf : ∀ pr ∈ m, ∀ d, f pr = some d → entryPath d = pr.1) :
    entriesFor p (m.filterMap f) =
      (match lookupSnap m p with
       | none => []
       | some fi => (f (p, fi)).toList) := by
  induction m with
  | nil => simp [entriesFor, lookupSnap]
  | cons hd tl ih =>
    obtain ⟨q, g⟩ := hd
    unfold NodupKeys at hm
    rw [List.map_cons, List.nodup_cons] at hm
    have hf_tl : ∀ pr ∈ tl, ∀ d, f pr = some d → entryPath d = pr.1 :=
      fun pr hpr => hf pr (List.mem_cons_of_mem _ hpr)
    have ihtl := ih hm.2 hf_tl
    have htl_none : lookupSnap tl q = none := lookupSnap_eq_none_iff.mpr hm.1
    cases hfq : f (q, g) with
    | none =>
      rw [List.filterMap_cons_none hfq, ihtl, lookupSnap_cons]
      by_cases hq : q = p
      · subst hq
        rw [if_pos rfl, htl_none]
        simp [hfq]
      · rw [if_neg hq]
    | some d =>
      have hdp : entryPath d = q := hf (q, g) (List.mem_cons_self _ _) d hfq
      rw [List.filterMap_cons_some hfq, entriesFor_cons, lookupSnap_cons]
      by_cases hq : q = p
      · subst hq
        rw [if_pos hdp, ihtl, htl_none, if_pos rfl]
        simp [hfq]
      · rw [if_neg (hdp ▸ hq), ihtl, if_neg hq]

theorem map_entryPath_filterMap_sublist (m : List (List String × FileInfo))
    (f : List String × FileInfo → Option DiffType)
    (hf : ∀ pr ∈ m, ∀ d, f pr = some d → entryPath d = pr.1) :
    List.Sublist ((m.filterMap f).map entryPath) (m.map Prod.fst) := by
  induction m with
  | nil => simp
  | cons hd tl ih =>
    have hf_tl : ∀ pr ∈ tl, ∀ d, f pr = some d → entryPath d = pr.1 :=
      fun pr hpr => hf pr (List.mem_cons_of_mem _ hpr)
    cases hfa : f hd with
    | none =>
      rw [List.filterMap_cons_none hfa, List.map_cons]
      exact (ih hf_tl).cons _
    | some d =>
      rw [List.filterMap_cons_some hfa, List.map_cons, List.map_cons,
        hf hd (List.mem_cons_self _ _) d hfa]
      exact (ih hf_tl).cons₂ _

theorem entryPath_targetPassF {s : List (List String × FileInfo)}
    {pr : List String × FileInfo} {d : DiffType} (hco : pr.2.relative_path = pr.1)
    (h : targetPassF s pr = some d) : entryPath d = pr.1 := by
  unfold targetPassF at h
  cases hls : lookupSnap s pr.1 <;> rw [hls] at h
  · injection h with h
    subst h
    exact hco
  · rename_i si
    have h2 : (if si.hash = pr.2.hash then none else some (DiffType.Modified pr.2))
        = some d := h
    by_cases hh : si.hash = pr.2.hash
    · rw [if_pos hh] at h2
      exact Option.noConfusion h2
    · rw [if_neg hh] at h2
      injection h2 with h2
      subst h2
      exact hco

theorem sourcePassF_eq_some {t : List (List String × FileInfo)}
    {pr : List String × FileInfo} {d : DiffType} (h : sourcePassF t pr = some d) :
    d = DiffType.Removed pr.1 ∧ lookupSnap t pr.1 = none := by
  unfold sourcePassF at h
  split at h
  · rename_i hnone
    injection h with h
    exact ⟨h.symm, Option.isNone_iff_eq_none.mp hnone⟩
  · exact Option.noConfusion h

theorem entryPath_sourcePassF {t : List (List String × FileInfo)}
    {pr : List String × FileInfo} {d : DiffType} (h : sourcePassF t pr = some d) :
    entryPath d = pr.1 := by
  rw [(sourcePassF_eq_some h).1]
  rfl

/-- Per-path characterization of the diff loops: the entries for a path
are read off the two lookups, exactly as §4.4 of the spec tabulates
them. -/
theorem entriesFor_compare (s t : List (List String × FileInfo)) (p : List String)
    (hs : NodupKeys s) (ht : NodupKeys t) (hct : Coherent t) :
    entriesFor p (compare_snapshots s t) =
      (match lookupSnap s p, lookupSnap t p with
       | some si, some ti => if si.hash = ti.hash then [] else [DiffType.Modified ti]
       | none, some ti => [DiffType.Added ti]
       | some _, none => [DiffType.Removed p]
       | none, none => []) := by
  unfold compare_snapshots
  rw [entriesFor_append]
  rw [entriesFor_filterMap t _ p ht
      (fun pr hpr d hd => entryPath_targetPassF (hct pr hpr) hd),
    entriesFor_filterMap s _ p hs
      (fun pr hpr d hd => entryPath_sourcePassF hd)]
  cases hls : lookupSnap s p <;> cases hlt : lookupSnap t p
  · rfl
  · rename_i ti
    simp [targetPassF, hls]
  · rename_i si
    simp [sourcePassF, hlt]
  · rename_i si ti
    simp [targetPassF, sourcePassF, hls, hlt]
    by_cases hh : si.hash = ti.hash <;> simp [hh]

/-! ## Lemmas: the scan pipeline -/

theorem stripPrefixComponents_eq_append {r p s : List String}
    (h : stripPrefixComponents r p = some s) : p = r ++ s := by
  induction r generalizing p with
  | nil => exact Option.some.inj h
  | cons a rs ih =>
    cases p with
    | nil => exact Option.noConfusion h
    | cons c cs =>
      unfold stripPrefixComponents at h
      split at h
      · rename_i hac
        rw [List.cons_append, ← ih h, hac]
      · exact Option.noConfusion h

theorem lookupSnap_foldl_insert_of_ne {l : List (List String × FileInfo)} {p : List String}
    (h : ∀ pr ∈ l, pr.1 ≠ p) (init : List (List String × FileInfo)) :
    lookupSnap (l.foldl (fun m pr => insertA m pr.1 pr.2) init) p = lookupSnap init p := by
  induction l generalizing init with
  | nil => rfl
  | cons hd tl ih =>
    rw [List.foldl_cons, ih (fun pr hpr => h pr (List.mem_cons_of_mem _ hpr)),
      lookupSnap_insertA, if_neg (h hd (List.mem_cons_self _ _))]

theorem lookupSnap_foldl_insert_eq_some {l : List (List String × FileInfo)}
    {init : List (List String × FileInfo)} {p : List String} {fi : FileInfo}
    (h : lookupSnap (l.foldl (fun m pr => insertA m pr.1 pr.2) init) p = some fi) :
    (p, fi) ∈ l ∨ lookupSnap init p = some fi := by
  induction l generalizing init with
  | nil => exact Or.inr h
  | cons hd tl ih =>
    rw [List.foldl_cons] at h
    rcases ih h with hmem | hinit
    · exact Or.inl (List.mem_cons_of_mem _ hmem)
    · rw [lookupSnap_insertA] at hinit
      by_cases hq : hd.1 = p
      · rw [if_pos hq] at hinit
        injection hinit with hinit
        left
        rw [← hq, ← hinit]
        exact List.mem_cons_self _ _
      · rw [if_neg hq] at hinit
        exact Or.inr hinit

theorem nodupKeys_foldl_insert (l : List (List String × FileInfo))
    {init : List (List String × FileInfo)} (h : NodupKeys init) :
    NodupKeys (l.foldl (fun m pr => insertA m pr.1 pr.2) init) := by
  induction l generalizing init with
  | nil => exact h
  | cons hd tl ih => exact ih (nodupKeys_insertA h hd.1 hd.2)

theorem coherent_foldl_insert {l : List (List String × FileInfo)}
    {init : List (List String × FileInfo)} (h : Coherent init)
    (hl : ∀ pr ∈ l, pr.2.relative_path = pr.1) :
    Coherent (l.foldl (fun m pr => insertA m pr.1 pr.2) init) := by
  induction l generalizing init with
  | nil => exact h
  | cons hd tl ih =>
    exact ih (coherent_insertA h (hl hd (List.mem_cons_self _ _)))
      (fun pr hpr => hl pr (List.mem_cons_of_mem _ hpr))

theorem scan_directory_eq_ok (d : List String) (ee ed : Option (List String))
    (w : List (Except Unit WalkEntry)) (mf : List String → Option Nat)
    (fs : List String → Option (List Nat)) :
    scan_directory d ee ed w mf fs = Except.ok (scanSnap d ee ed w mf fs) := rfl

theorem scanSnap_eq_foldl (d : List String) (ee ed : Option (List String))
    (w : List (Except Unit WalkEntry)) (mf : List String → Option Nat)
    (fs : List String → Option (List Nat)) :
    scanSnap d ee ed w mf fs =
      (scanPairs d ee ed w mf fs).foldl (fun m pr => insertA m pr.1 pr.2) [] := rfl

theorem mem_scanPairs {d : List String} {ee ed : Option (List String)}
    {w : List (Except Unit WalkEntry)} {mf : List String → Option Nat}
    {fs : List String → Option (List Nat)} {pr : List String × FileInfo}
    (h : pr ∈ scanPairs d ee ed w mf fs) :
    pr.2.relative_path = pr.1 ∧ pr.1.any startsWithDot = false ∧
      mf (d ++ pr.1) = some pr.2.size ∧
      calculate_file_hash fs (d ++ pr.1) = Except.ok pr.2.hash := by
  unfold scanPairs at h
  rw [List.mem_filterMap] at h
  obtain ⟨o, ho, hid⟩ := h
  rw [List.mem_map] at ho
  obtain ⟨e, he, heo⟩ := ho
  rw [List.mem_filter] at he
  obtain ⟨hwf, hflt⟩ := he
  subst heo
  simp only [id] at hid
  unfold scanProcess at hid
  cases hstrip : stripPrefixComponents d e.path with
  | none =>
    rw [hstrip] at hid
    exact Option.noConfusion hid
  | some rel =>
    rw [hstrip] at hid
    cases hmf : mf e.path with
    | none =>
      rw [hmf] at hid
      exact Option.noConfusion hid
    | some len =>
      rw [hmf] at hid
      cases hcf : calculate_file_hash fs e.path with
      | error u =>
        rw [hcf] at hid
        exact Option.noConfusion hid
      | ok hh =>
        rw [hcf] at hid
        injection hid with hid
        subst hid
        have hpath : e.path = d ++ rel := stripPrefixComponents_eq_append hstrip
        refine ⟨rfl, ?_, ?_, ?_⟩
        · unfold scanFilter at hflt
          rw [hstrip] at hflt
          simp only [Option.getD_some] at hflt
          cases hb : rel.any startsWithDot
          · rfl
          · rw [hb, if_pos rfl] at hflt
            exact Bool.noConfusion hflt
        · rw [← hpath]
          exact hmf
        · rw [← hpath]
          exact hcf

theorem scanSnap_nodupKeys (d : List String) (ee ed : Option (List String))
    (w : List (Except Unit WalkEntry)) (mf : List String → Option Nat)
    (fs : List String → Option (List Nat)) : NodupKeys (scanSnap d ee ed w mf fs) := by
  rw [scanSnap_eq_foldl]
  exact nodupKeys_foldl_insert _ (by simp [NodupKeys])

theorem scanSnap_coherent (d : List String) (ee ed : Option (List String))
    (w : List (Except Unit WalkEntry)) (mf : List String → Option Nat)
    (fs : List String → Option (List Nat)) : Coherent (scanSnap d ee ed w mf fs) := by
  rw [scanSnap_eq_foldl]
  exact coherent_foldl_insert (fun pr hpr => absurd hpr (List.not_mem_nil _))
    (fun pr hpr => (mem_scanPairs hpr).1)

theorem scanSnap_lookup_hidden {d : List String} {ee ed : Option (List String)}
    {w : List (Except Unit WalkEntry)} {mf : List String → Option Nat}
    {fs : List String → Option (List Nat)} {p : List String}
    (hp : p.any startsWithDot = true) :
    lookupSnap (scanSnap d ee ed w mf fs) p = none := by
  rw [scanSnap_eq_foldl]
  have hne : ∀ pr ∈ scanPairs d ee ed w mf fs, pr.1 ≠ p := by
    intro pr hpr hc
    have h2 := (mem_scanPairs hpr).2.1
    rw [hc, hp] at h2
    exact Bool.noConfusion h2
  rw [lookupSnap_foldl_insert_of_ne hne]
  rfl

theorem scanSnap_lookup_facts {d : List String} {ee ed : Option (List String)}
    {w : List (Except Unit WalkEntry)} {mf : List String → Option Nat}
    {fs : List String → Option (List Nat)} {p : List String} {fi : FileInfo}
    (h : lookupSnap (scanSnap d ee ed w mf fs) p = some fi) :
    mf (d ++ p) = some fi.size ∧ calculate_file_hash fs (d ++ p) = Except.ok fi.hash := by
  rw [scanSnap_eq_foldl] at h
  rcases lookupSnap_foldl_insert_eq_some h with hmem | hnil
  · have hfacts := mem_scanPairs hmem
    exact ⟨hfacts.2.2.1, hfacts.2.2.2⟩
  · exact Option.noConfusion hnil

/-! ## The claims -/

/-- C1, counterexample to the claim as stated: a root that cannot be
traversed at all — the walk yields one error and no entries — still
makes `scan_directory` return `Ok` with an empty snapshot, because
`filter_map(Result::ok)` drops the root error; it does not fail with an
I/O error. -/
theorem c1_root_error_returns_ok :
    scan_directory ["root"] none none [Except.error ()] (fun _ => none) (fun _ => none)
        = Except.ok [] ∧
      scan_directory ["root"] none none [Except.error ()] (fun _ => none) (fun _ => none)
        ≠ Except.error () :=
  ⟨rfl, fun h => Except.noConfusion h⟩

/-- C1, amended: `scan_directory` never fails, for any root and any
walk outcome (a nonexistent or untraversable root included) — it
returns `Ok` of the assembled snapshot, and every record it does return
came from a file whose metadata lookup and hashing both succeeded, so
individually unreadable files are silently omitted rather than
reported. -/
theorem c1_scan_never_fails (d : List String) (ee ed : Option (List String))
    (w : List (Except Unit WalkEntry)) (mf : List String → Option Nat)
    (fs : List String → Option (List Nat)) :
    scan_directory d ee ed w mf fs = Except.ok (scanSnap d ee ed w mf fs) ∧
      ∀ p fi, lookupSnap (scanSnap d ee ed w mf fs) p = some fi →
        mf (d ++ p) = some fi.size ∧
          calculate_file_hash fs (d ++ p) = Except.ok fi.hash :=
  ⟨scan_directory_eq_ok d ee ed w mf fs, fun _ _ h => scanSnap_lookup_facts h⟩

/-- Witness instantiating `c1_scan_never_fails`: a one-file tree; the
scan returns `Ok` and the record for `a.txt` reflects its metadata and
hash. -/
theorem c1_scan_never_fails_witness :
    scan_directory ["r"] none none [Except.ok ⟨["r", "a.txt"], true⟩]
        (fun _ => some 3) (fun _ => some []) =
      Except.ok (scanSnap ["r"] none none [Except.ok ⟨["r", "a.txt"], true⟩]
        (fun _ => some 3) (fun _ => some [])) ∧
      calculate_file_hash (fun _ => some []) ["r", "a.txt"] = Except.ok (sha256hex []) :=
  ⟨(c1_scan_never_fails ["r"] none none [Except.ok ⟨["r", "a.txt"], true⟩]
      (fun _ => some 3) (fun _ => some [])).1,
    ((c1_scan_never_fails ["r"] none none [Except.ok ⟨["r", "a.txt"], true⟩]
      (fun _ => some 3) (fun _ => some [])).2 ["a.txt"]
      (FileInfo.mk ["a.txt"] (sha256hex []) 3) rfl).2⟩

/-- C6, counterexample to the claim as stated: under the spec's own
definition of extension ("text after the last `.` in the final
component"), `.gitignore` has extension `gitignore`, the rule list
`["gitignore"]` contains it bare, yet the filter does not exclude the
path, because Rust's `Path::extension` treats a leading-dot-only name
as having no extension. -/
theorem c6_leading_dot_counterexample :
    specFinalExtension [".gitignore"] = some "gitignore" ∧
      "gitignore" ∈ ["gitignore"] ∧
      should_exclude [".gitignore"] (some ["gitignore"]) none = false := by
  refine ⟨?_, ?_, ?_⟩ <;> decide

/-- C6, amended: with extension computed as the source computes it
(absent when the final component has no `.` or begins with its only
`.`), the filter excludes a path by the extension rules iff the rule
list contains the extension bare or dot-prefixed; a path with no such
extension is never excluded by the extension rules. -/
theorem c6_extension_rules (path : List String) (rules : List String) :
    should_exclude path (some rules) none = true ↔
      ∃ ext, pathExtension path = some ext ∧
        ("." ++ ext ∈ rules ∨ ext ∈ rules) := by
  unfold should_exclude excludedByDirs
  rw [Bool.or_false]
  constructor
  · intro h
    unfold excludedByExtension at h
    cases hpe : pathExtension path with
    | none =>
      rw [hpe] at h
      exact Bool.noConfusion h
    | some ext =>
      rw [hpe] at h
      rw [List.any_eq_true] at h
      obtain ⟨e, he, hm⟩ := h
      refine ⟨ext, rfl, ?_⟩
      simp only [Bool.or_eq_true, beq_iff_eq] at hm
      rcases hm with rfl | rfl
      · exact Or.inl he
      · exact Or.inr he
  · rintro ⟨ext, hpe, hmem⟩
    unfold excludedByExtension
    rw [hpe]
    rw [List.any_eq_true]
    rcases hmem with hm | hm
    · exact ⟨"." ++ ext, hm, by simp⟩
    · exact ⟨ext, hm, by simp⟩

/-- Witness instantiating `c6_extension_rules` in both directions:
`b.log` is excluded under the bare rule `log`, and an extensionless
path is not excluded under any extension rule. -/
theorem c6_extension_rules_witness :
    should_exclude ["a", "b.log"] (some ["log"]) none = true ∧
      should_exclude ["noext"] (some ["log", ".log"]) none = false := by
  constructor
  · exact (c6_extension_rules ["a", "b.log"] ["log"]).mpr ⟨"log", rfl, Or.inr (by decide)⟩
  · cases hb : should_exclude ["noext"] (some ["log", ".log"]) none
    · rfl
    · obtain ⟨ext, hext, _⟩ := (c6_extension_rules ["noext"] ["log", ".log"]).mp hb
      rw [show pathExtension ["noext"] = none from rfl] at hext
      exact Option.noConfusion hext

/-- C7: the directory rules exclude a path iff, for some configured
fragment (separator-normalized), the path's display form contains
`fragment/` as a substring or ends with the fragment; this is substring
matching, so the rule `build` also hits the component `rebuild`. -/
theorem c7_directory_rules (path : List String) (dirs : List String) :
    (should_exclude path none (some dirs) = true ↔
      ∃ dir ∈ dirs,
        strContainsStr (pathDisplay path) (normalizeSeps dir ++ "/") = true ∨
          strEndsWith (pathDisplay path) (normalizeSeps dir) = true) ∧
      should_exclude ["rebuild", "x.txt"] none (some ["build"]) = true := by
  constructor
  · unfold should_exclude excludedByExtension excludedByDirs
    rw [Bool.false_or, List.any_eq_true]
    constructor
    · rintro ⟨dir, hdir, hm⟩
      rw [Bool.or_eq_true] at hm
      exact ⟨dir, hdir, hm⟩
    · rintro ⟨dir, hdir, hm⟩
      exact ⟨dir, hdir, by rw [Bool.or_eq_true]; exact hm⟩
  · decide

/-- Witness instantiating `c7_directory_rules`: a file under a `build`
directory is excluded by the rule `build`. -/
theorem c7_directory_rules_witness :
    should_exclude ["src", "build", "a.o"] none (some ["build"]) = true :=
  (c7_directory_rules ["src", "build", "a.o"] ["build"]).1.mpr
    ⟨"build", by decide, Or.inl (by decide)⟩

/-- C9: the fingerprint is a function of the byte content alone — any
two successful hashing runs over byte-for-byte identical content return
the same string, namely the SHA-256 hex digest of that content. -/
theorem c9_hash_deterministic (fs1 fs2 : List String → Option (List Nat))
    (p1 p2 : List String) (c : List Nat)
    (h1 : fs1 p1 = some c) (h2 : fs2 p2 = some c) :
    calculate_file_hash fs1 p1 = Except.ok (sha256hex c) ∧
      calculate_file_hash fs2 p2 = Except.ok (sha256hex c) ∧
      calculate_file_hash fs1 p1 = calculate_file_hash fs2 p2 := by
  unfold calculate_file_hash
  rw [h1, h2]
  exact ⟨rfl, rfl, rfl⟩

/-- Witness instantiating `c9_hash_deterministic`: two invocations over
the same two-byte content agree. -/
theorem c9_hash_deterministic_witness :
    (fun _ : List String => some ([72, 105] : List Nat)) ["x"] = some [72, 105] ∧
      calculate_file_hash (fun _ => some [72, 105]) ["x"] =
        calculate_file_hash (fun _ => some [72, 105]) ["y"] :=
  ⟨rfl, (c9_hash_deterministic (fun _ => some [72, 105]) (fun _ => some [72, 105])
    ["x"] ["y"] [72, 105] rfl rfl).2.2⟩

/-- C10: extension matching is case-sensitive string equality —
`a.LOG` is not excluded under the rule `.log`, while `a.log` is. -/
theorem c10_case_sensitive :
    should_exclude ["a.LOG"] (some [".log"]) none = false ∧
      should_exclude ["a.log"] (some [".log"]) none = true := by
  refine ⟨?_, ?_⟩ <;> decide

/-- C2: for a path present in both snapshots, the diff holds exactly
one `Modified` entry carrying the target's record when the hashes
differ, and no entry at all when they are equal. -/
theorem c2_modified_entries (s t : List (List String × FileInfo)) (p : List String)
    (si ti : FileInfo) (hs : NodupKeys s) (ht : NodupKeys t) (hct : Coherent t)
    (hsi : lookupSnap s p = some si) (hti : lookupSnap t p = some ti) :
    entriesFor p (compare_snapshots s t) =
      (if si.hash = ti.hash then [] else [DiffType.Modified ti]) := by
  rw [entriesFor_compare s t p hs ht hct, hsi, hti]

/-- Witness instantiating `c2_modified_entries`: one changed file gives
exactly one `Modified` entry with the target's record; an unchanged
file gives none. -/
theorem c2_modified_entries_witness :
    entriesFor ["b.txt"]
        (compare_snapshots [(["b.txt"], FileInfo.mk ["b.txt"] "h1" 5)]
          [(["b.txt"], FileInfo.mk ["b.txt"] "h2" 5)]) =
      [DiffType.Modified (FileInfo.mk ["b.txt"] "h2" 5)] ∧
      entriesFor ["a.txt"]
        (compare_snapshots [(["a.txt"], FileInfo.mk ["a.txt"] "h" 1)]
          [(["a.txt"], FileInfo.mk ["a.txt"] "h" 1)]) = [] := by
  have hdiff := c2_modified_entries
    [(["b.txt"], FileInfo.mk ["b.txt"] "h1" 5)]
    [(["b.txt"], FileInfo.mk ["b.txt"] "h2" 5)] ["b.txt"]
    (FileInfo.mk ["b.txt"] "h1" 5) (FileInfo.mk ["b.txt"] "h2" 5)
    (by unfold NodupKeys; decide) (by unfold NodupKeys; decide)
    (by unfold Coherent; decide) rfl rfl
  have hsame := c2_modified_entries
    [(["a.txt"], FileInfo.mk ["a.txt"] "h" 1)]
    [(["a.txt"], FileInfo.mk ["a.txt"] "h" 1)] ["a.txt"]
    (FileInfo.mk ["a.txt"] "h" 1) (FileInfo.mk ["a.txt"] "h" 1)
    (by unfold NodupKeys; decide) (by unfold NodupKeys; decide)
    (by unfold Coherent; decide) rfl rfl
  rw [hdiff, hsame]
  refine ⟨?_, ?_⟩ <;> decide

/-- C3: for a path present in exactly one snapshot, the diff holds
exactly one entry: `Added` with the target's record when only the
target has it, `Removed` with just the path when only the source has
it. -/
theorem c3_added_removed_entries (s t : List (List String × FileInfo)) (p : List String)
    (hs : NodupKeys s) (ht : NodupKeys t) (hct : Coherent t) :
    (∀ ti : FileInfo, lookupSnap s p = none → lookupSnap t p = some ti →
      entriesFor p (compare_snapshots s t) = [DiffType.Added ti]) ∧
      (∀ si : FileInfo, lookupSnap s p = some si → lookupSnap t p = none →
        entriesFor p (compare_snapshots s t) = [DiffType.Removed p]) := by
  constructor
  · intro ti hn hsome
    rw [entriesFor_compare s t p hs ht hct, hn, hsome]
  · intro si hsome hn
    rw [entriesFor_compare s t p hs ht hct, hsome, hn]

/-- Witness instantiating `c3_added_removed_entries`: a target-only
file yields exactly `Added`, a source-only file exactly `Removed`. -/
theorem c3_added_removed_entries_witness :
    entriesFor ["c.txt"]
        (compare_snapshots [] [(["c.txt"], FileInfo.mk ["c.txt"] "hc" 3)]) =
      [DiffType.Added (FileInfo.mk ["c.txt"] "hc" 3)] ∧
      entriesFor ["d.txt"]
        (compare_snapshots [(["d.txt"], FileInfo.mk ["d.txt"] "hd" 4)] []) =
      [DiffType.Removed ["d.txt"]] :=
  ⟨(c3_added_removed_entries [] [(["c.txt"], FileInfo.mk ["c.txt"] "hc" 3)] ["c.txt"]
      (by unfold NodupKeys; decide) (by unfold NodupKeys; decide)
      (by unfold Coherent; decide)).1 (FileInfo.mk ["c.txt"] "hc" 3) rfl rfl,
    (c3_added_removed_entries [(["d.txt"], FileInfo.mk ["d.txt"] "hd" 4)] [] ["d.txt"]
      (by unfold NodupKeys; decide) (by unfold NodupKeys; decide)
      (by unfold Coherent; decide)).2 (FileInfo.mk ["d.txt"] "hd" 4) rfl rfl⟩

/-- C4: two snapshots that agree as mappings — the hash lookup is the
same function on every path, which forces the same key set — diff to
the empty list. -/
theorem c4_identical_empty (s t : List (List String × FileInfo))
    (hs : NodupKeys s) (ht : NodupKeys t)
    (h : ∀ p, (lookupSnap s p).map FileInfo.hash = (lookupSnap t p).map FileInfo.hash) :
    compare_snapshots s t = [] := by
  unfold compare_snapshots
  rw [List.append_eq_nil]
  constructor
  · rw [List.filterMap_eq_nil_iff]
    intro pr hpr
    have hlt : lookupSnap t pr.1 = some pr.2 := lookupSnap_of_nodupKeys_mem ht hpr
    have hhash := h pr.1
    rw [hlt] at hhash
    unfold targetPassF
    cases hls : lookupSnap s pr.1 with
    | none =>
      rw [hls] at hhash
      exact Option.noConfusion hhash
    | some si =>
      rw [hls] at hhash
      simp only [Option.map_some'] at hhash
      injection hhash with hhash
      show (if si.hash = pr.2.hash then none else some (DiffType.Modified pr.2)) = none
      rw [if_pos hhash]
  · rw [List.filterMap_eq_nil_iff]
    intro pr hpr
    have hls : lookupSnap s pr.1 = some pr.2 := lookupSnap_of_nodupKeys_mem hs hpr
    have hhash := h pr.1
    rw [hls] at hhash
    unfold sourcePassF
    cases hlt : lookupSnap t pr.1 with
    | none =>
      rw [hlt] at hhash
      simp only [Option.map_some', Option.map_none'] at hhash
      exact Option.noConfusion hhash
    | some ti => rfl

/-- Witness instantiating `c4_identical_empty`: equal one-file
snapshots produce the empty diff. -/
theorem c4_identical_empty_witness :
    compare_snapshots [(["a.txt"], FileInfo.mk ["a.txt"] "h" 2)]
      [(["a.txt"], FileInfo.mk ["a.txt"] "h" 2)] = [] :=
  c4_identical_empty [(["a.txt"], FileInfo.mk ["a.txt"] "h" 2)]
    [(["a.txt"], FileInfo.mk ["a.txt"] "h" 2)]
    (by unfold NodupKeys; decide) (by unfold NodupKeys; decide) (fun _ => rfl)

/-- C5: the diff never mentions a relative path twice — the list of
paths of all `Added`/`Modified`/`Removed` entries has no duplicates. -/
theorem c5_no_duplicate_paths (s t : List (List String × FileInfo))
    (hs : NodupKeys s) (ht : NodupKeys t) (hct : Coherent t) :
    ((compare_snapshots s t).map entryPath).Nodup := by
  unfold compare_snapshots
  rw [List.map_append, List.nodup_append]
  have hsubT := map_entryPath_filterMap_sublist t (targetPassF s)
    (fun pr hpr d hd => entryPath_targetPassF (hct pr hpr) hd)
  have hsubS := map_entryPath_filterMap_sublist s (sourcePassF t)
    (fun pr hpr d hd => entryPath_sourcePassF hd)
  refine ⟨ht.sublist hsubT, hs.sublist hsubS, ?_⟩
  intro x hx1 hx2
  rw [List.mem_map] at hx2
  obtain ⟨d, hd, hdx⟩ := hx2
  rw [List.mem_filterMap] at hd
  obtain ⟨pr, hpr, hfd⟩ := hd
  obtain ⟨hdr, hnone⟩ := sourcePassF_eq_some hfd
  have hx1t : x ∈ t.map Prod.fst := hsubT.subset hx1
  have hxp : x = pr.1 := by rw [← hdx, hdr]; rfl
  exact (lookupSnap_eq_none_iff.mp hnone) (hxp ▸ hx1t)

/-- Witness instantiating `c5_no_duplicate_paths` on snapshots that
produce one entry of each kind. -/
theorem c5_no_duplicate_paths_witness :
    ((compare_snapshots
        [(["a"], FileInfo.mk ["a"] "h1" 1), (["b"], FileInfo.mk ["b"] "h2" 2)]
        [(["a"], FileInfo.mk ["a"] "h3" 1), (["c"], FileInfo.mk ["c"] "h4" 3)]).map
      entryPath).Nodup :=
  c5_no_duplicate_paths
    [(["a"], FileInfo.mk ["a"] "h1" 1), (["b"], FileInfo.mk ["b"] "h2" 2)]
    [(["a"], FileInfo.mk ["a"] "h3" 1), (["c"], FileInfo.mk ["c"] "h4" 3)]
    (by unfold NodupKeys; decide) (by unfold NodupKeys; decide)
    (by unfold Coherent; decide)

/-- C8: a relative path with a component beginning with `.` is absent
from every snapshot `scan_directory` builds — whatever the configured
rules — and the diff of two such snapshots has no entry for it. -/
theorem c8_hidden_always_excluded (root_s root_t : List String)
    (ee ed : Option (List String)) (ws wt : List (Except Unit WalkEntry))
    (mf : List String → Option Nat) (fs : List String → Option (List Nat))
    (p : List String) (hp : p.any startsWithDot = true) :
    lookupSnap (scanSnap root_s ee ed ws mf fs) p = none ∧
      lookupSnap (scanSnap root_t ee ed wt mf fs) p = none ∧
      entriesFor p (compare_snapshots (scanSnap root_s ee ed ws mf fs)
        (scanSnap root_t ee ed wt mf fs)) = [] := by
  refine ⟨scanSnap_lookup_hidden hp, scanSnap_lookup_hidden hp, ?_⟩
  rw [entriesFor_compare _ _ p (scanSnap_nodupKeys root_s ee ed ws mf fs)
      (scanSnap_nodupKeys root_t ee ed wt mf fs)
      (scanSnap_coherent root_t ee ed wt mf fs),
    scanSnap_lookup_hidden hp, scanSnap_lookup_hidden hp]

/-- Witness instantiating `c8_hidden_always_excluded`: a `.git/cfg`
file present only under the source root still yields no snapshot entry
and no diff entry. -/
theorem c8_hidden_always_excluded_witness :
    ([".git", "cfg"].any startsWithDot = true) ∧
      lookupSnap (scanSnap ["r"] none none [Except.ok ⟨["r", ".git", "cfg"], true⟩]
        (fun _ => some 1) (fun _ => some [])) [".git", "cfg"] = none :=
  ⟨by decide,
    (c8_hidden_always_excluded ["r"] ["r2"] none none
      [Except.ok ⟨["r", ".git", "cfg"], true⟩] [] (fun _ => some 1) (fun _ => some [])
      [".git", "cfg"] (by decide)).1⟩

end FileDiff
